import Mathlib

/-!
Verification of the AT91RM9200 DBGU serial driver and its tiny printf
(`src/task1/serial_demo.c`), as a shallow embedding in Lean 4.

Hardware register accesses are modelled as explicit event traces: a
status-register read sequence is supplied as a list of values (the values
the volatile reads would return), and each driver routine produces the
trace of reads and data-register writes it performs.  Characters and
bytes are modelled as `Char` / `Nat`; C unsigned arithmetic is `Nat`
arithmetic (the source never overflows where it matters).
-/

namespace SerialDemo

/-! ### Register layout and bit masks (lines 14-57 of the source) -/

/-- The six DBGU registers, at their fixed offsets from `DBGU_BASE`. -/
inductive Reg
  | CR | MR | SR | RHR | THR | BRGR
deriving DecidableEq, Repr

def DBGU_BASE : Nat := 0xFFFFF200

def regOffset : Reg → Nat
  | .CR => 0x00
  | .MR => 0x04
  | .SR => 0x14
  | .RHR => 0x18
  | .THR => 0x1C
  | .BRGR => 0x20

def CR_RSTRX : Nat := 1 <<< 2
def CR_RSTTX : Nat := 1 <<< 3
def CR_RXEN : Nat := 1 <<< 4
def CR_TXEN : Nat := 1 <<< 6

def SR_RXRDY : Nat := 1 <<< 0
def SR_TXRDY : Nat := 1 <<< 1

def MR_PAR_NONE : Nat := 4 <<< 9

/-! ### `dbgu_init` (lines 78-83)

The body is four volatile register writes and no reads, so its semantics
is the ordered list of (register, value) writes.  `MCK` and `BAUD` are
build-time configuration constants with defaults 60000000 and 115200;
they are passed as parameters here. -/

def dbgu_init (mck baud : Nat) : List (Reg × Nat) :=
  [ (Reg.CR, CR_RSTRX ||| CR_RSTTX)
  , (Reg.MR, MR_PAR_NONE)
  , (Reg.BRGR, mck / (16 * baud))
  , (Reg.CR, CR_RXEN ||| CR_TXEN) ]

def MCK : Nat := 60000000
def BAUD : Nat := 115200

/-! ### Hardware I/O event traces for `dbgu_putc` / `dbgu_getc` -/

/-- One observable hardware access: a read of the status register (with
the value the read returned), a write of a byte to the transmit holding
register, or a read of the receive holding register. -/
inductive Event
  | readSR (v : Nat)
  | writeTHR (b : Nat)
  | readRHR (v : Nat)
deriving DecidableEq, Repr

/-- The busy-wait loop polling `DBGU_SR` for `bit`: consume values from
`srs` (the successive values the volatile status reads return) until one
has `bit` set.  Returns the trace of reads together with the unconsumed
suffix, or `none` if the supplied read sequence is exhausted before the
bit is ever set (the loop would spin forever). -/
def waitFor (bit : Nat) : List Nat → Option (List Event × List Nat)
  | [] => none
  | v :: rest =>
    if v &&& bit ≠ 0 then some ([Event.readSR v], rest)
    else
      match waitFor bit rest with
      | none => none
      | some (evs, r) => some (Event.readSR v :: evs, r)

/-- `dbgu_putc` (lines 90-97): if `c` is the newline byte 10, wait for
TXRDY and write the carriage-return byte 13 first; then wait for TXRDY
and write `c`. -/
def dbgu_putc (c : Nat) (srs : List Nat) : Option (List Event × List Nat) :=
  if c = 10 then
    match waitFor SR_TXRDY srs with
    | none => none
    | some (w1, r1) =>
      match waitFor SR_TXRDY r1 with
      | none => none
      | some (w2, r2) =>
        some (w1 ++ [Event.writeTHR 13] ++ w2 ++ [Event.writeTHR c], r2)
  else
    match waitFor SR_TXRDY srs with
    | none => none
    | some (w, r) => some (w ++ [Event.writeTHR c], r)

/-- `dbgu_getc` (lines 103-106): wait for RXRDY, then read RHR (value
`rhr`) and return it cast to `unsigned char`, i.e. truncated mod 256. -/
def dbgu_getc (srs : List Nat) (rhr : Nat) : Option (List Event × Nat) :=
  match waitFor SR_RXRDY srs with
  | none => none
  | some (w, _) => some (w ++ [Event.readRHR rhr], rhr % 256)

/-! ### `dbgu_puts` (lines 111-114)

Modelled at the character level: the result is the sequence of
characters handed to `dbgu_putc`, in order.  A C string is a `List Char`
read up to the first NUL; a null pointer is `none`. -/

def nul : Char := Char.ofNat 0

/-- The character loop of `dbgu_puts`: send each character until the
NUL terminator. -/
def puts_loop : List Char → List Char
  | [] => []
  | c :: rest => if c = nul then [] else c :: puts_loop rest

/-- `dbgu_puts`: a null pointer is a no-op, otherwise the character
loop. -/
def dbgu_puts : Option (List Char) → List Char
  | none => []
  | some s => puts_loop s

/-! ### `utoa_hex` (lines 119-127) -/

/-- The digit table `"0123456789abcdef"`. -/
def hexDigits : List Char := "0123456789abcdef".toList

/-- The digit-extraction loop of `utoa_hex`: take the low 4 bits as a
digit character and shift right by 4 until the value is zero.  The
result is the digit characters accumulated least-significant-first
(the contents of `tmp`). -/
def hexLoop (v : Nat) : List Char :=
  if v = 0 then []
  else hexDigits.getD (v &&& 0xF) '0' :: hexLoop (v >>> 4)
decreasing_by
  rw [Nat.shiftRight_eq_div_pow]
  exact Nat.div_lt_self (Nat.pos_of_ne_zero (by assumption)) (by norm_num)

/-- `utoa_hex`: the special case `v == 0` yields `"0"`; otherwise the
accumulated digits are copied out in reverse (most-significant-first).
The result is the digit content of `buf` before its NUL terminator. -/
def utoa_hex (v : Nat) : List Char :=
  if v = 0 then ['0'] else (hexLoop v).reverse

/-- Value of a lowercase hex digit character (spec-side, for the
round-trip property). -/
def hexVal (c : Char) : Nat :=
  if c.toNat ≤ 57 then c.toNat - 48 else c.toNat - 87

/-- Parse a string of lowercase hex digits, most significant first
(spec-side, for the round-trip property). -/
def hexParse (l : List Char) : Nat :=
  l.foldl (fun acc c => 16 * acc + hexVal c) 0

/-! ### `tiny_printf` (lines 138-152)

The variadic arguments are modelled as a list of tagged values, one
constructor per `va_arg` type the source reads (`int` cast to
`unsigned char`, `const char*`, `unsigned int`, `void*`).  A directive
that reads past the end of the argument list, or reads an argument of
the wrong tag, is the caller contract violation the spec calls undefined
behaviour, so the formatter returns `none` there.  Otherwise the result
is the sequence of characters handed to `dbgu_putc` (directly and via
`dbgu_puts`), in order. -/

inductive Arg
  | char (c : Char)
  | str (s : Option (List Char))
  | uint (v : Nat)
  | ptr (v : Nat)
deriving DecidableEq, Repr

/-- The substitute text `"(null)"` for a null `%s` argument. -/
def nullSubst : List Char := ['(', 'n', 'u', 'l', 'l', ')']

/-- The format-string scan of `tiny_printf`, over the characters of
`fmt` up to its NUL terminator (either the end of the list or an
embedded `nul`). -/
def tiny_printf : List Char → List Arg → Option (List Char)
  | [], _ => some []
  | c :: p, args =>
    if c = nul then some []
    else if c ≠ '%' then (tiny_printf p args).map (fun t => c :: t)
    else
      match p with
      | [] => some ['%']
      | d :: q =>
        if d = nul then some ['%']
        else if d = '%' then (tiny_printf q args).map (fun t => '%' :: t)
        else if d = 'c' then
          match args with
          | Arg.char ch :: args' => (tiny_printf q args').map (fun t => ch :: t)
          | _ => none
        else if d = 's' then
          match args with
          | Arg.str s :: args' =>
            (tiny_printf q args').map (fun t =>
              dbgu_puts (some ((s.getD nullSubst))) ++ t)
          | _ => none
        else if d = 'x' then
          match args with
          | Arg.uint v :: args' =>
            (tiny_printf q args').map (fun t => dbgu_puts (some (utoa_hex v)) ++ t)
          | _ => none
        else if d = 'p' then
          match args with
          | Arg.ptr v :: args' =>
            (tiny_printf q args').map (fun t =>
              dbgu_puts (some ['0', 'x']) ++ dbgu_puts (some (utoa_hex v)) ++ t)
          | _ => none
        else (tiny_printf q args).map (fun t => '%' :: d :: t)

/-! ### Specification-side trace predicates -/

/-- The shape of a completed busy-wait: some status reads that all miss
the polled bit, then one read that has it set. -/
def waitTrace (bit : Nat) (evs : List Event) : Prop :=
  ∃ (pre : List Nat) (v : Nat), evs = pre.map Event.readSR ++ [Event.readSR v] ∧
    (∀ u ∈ pre, u &&& bit = 0) ∧ v &&& bit ≠ 0

/-- Tracks, along an event trace, whether a ready observation licenses
the next data-register access: a status read with the polled bit set
sets the flag, a transmit write requires it and clears it (the next
write needs its own wait), a receive read requires it. -/
def guardedWrites (bit : Nat) : Bool → List Event → Bool
  | _, [] => true
  | ready, Event.readSR v :: rest =>
      guardedWrites bit (ready || decide (v &&& bit ≠ 0)) rest
  | ready, Event.writeTHR _ :: rest => ready && guardedWrites bit false rest
  | ready, Event.readRHR _ :: rest => ready && guardedWrites bit ready rest

/-! ### Arithmetic helper lemmas -/

theorem and_fifteen (v : Nat) : v &&& 0xF = v % 16 := by
  have h := Nat.and_pow_two_sub_one_eq_mod v 4
  simpa using h

theorem shiftRight_four (v : Nat) : v >>> 4 = v / 16 := by
  rw [Nat.shiftRight_eq_div_pow]

/-! ### Hex conversion lemmas -/

theorem hexVal_digit : ∀ n, n < 16 → hexVal (hexDigits.getD n '0') = n := by decide

theorem hexLoop_parse (v : Nat) :
    ∀ acc, List.foldl (fun a c => 16 * a + hexVal c) acc (hexLoop v).reverse
      = acc * 16 ^ (hexLoop v).length + v := by
  induction v using hexLoop.induct with
  | case1 => intro acc; simp [hexLoop]
  | case2 v hv ih =>
    intro acc
    rw [hexLoop, if_neg hv]
    simp only [List.reverse_cons, List.foldl_append, List.foldl_cons, List.foldl_nil,
      List.length_cons]
    rw [ih acc, hexVal_digit (v &&& 0xF) (by rw [and_fifteen]; omega)]
    rw [and_fifteen, shiftRight_four]
    have hdm : 16 * (v / 16) + v % 16 = v := Nat.div_add_mod v 16
    calc 16 * (acc * 16 ^ (hexLoop (v / 16)).length + v / 16) + v % 16
        = acc * (16 ^ (hexLoop (v / 16)).length * 16) + (16 * (v / 16) + v % 16) := by
          ring
      _ = acc * 16 ^ ((hexLoop (v / 16)).length + 1) + v := by rw [hdm, pow_succ]

theorem hexDigit_ne_zero : ∀ n, n < 16 → n ≠ 0 → hexDigits.getD n '0' ≠ '0' := by
  decide

theorem hexDigit_ne_nul : ∀ n, n < 16 → hexDigits.getD n '0' ≠ nul := by decide

theorem hexLoop_head_ne_zero (v : Nat) :
    v ≠ 0 → ∃ c l, (hexLoop v).reverse = c :: l ∧ c ≠ '0' := by
  induction v using hexLoop.induct with
  | case1 => intro h; exact absurd rfl h
  | case2 v hv ih =>
    intro _
    rw [hexLoop, if_neg hv]
    by_cases h4 : v >>> 4 = 0
    · have hlt : v &&& 0xF ≠ 0 := by
        rw [and_fifteen]
        rw [shiftRight_four] at h4
        omega
      refine ⟨hexDigits.getD (v &&& 0xF) '0', [], ?_, ?_⟩
      · rw [h4, hexLoop]; simp
      · exact hexDigit_ne_zero _ (by rw [and_fifteen]; omega) hlt
    · obtain ⟨c, l, hl, hc⟩ := ih h4
      refine ⟨c, l ++ [hexDigits.getD (v &&& 0xF) '0'], ?_, hc⟩
      simp [hl]

theorem hexLoop_ne_nul (v : Nat) : ∀ c ∈ hexLoop v, c ≠ nul := by
  induction v using hexLoop.induct with
  | case1 => rw [hexLoop]; simp
  | case2 v hv ih =>
    rw [hexLoop, if_neg hv]
    intro c hc
    rcases List.mem_cons.mp hc with h | h
    · subst h; exact hexDigit_ne_nul _ (by rw [and_fifteen]; omega)
    · exact ih c h

theorem hexLoop_length_le : ∀ k v, v < 16 ^ k → (hexLoop v).length ≤ k := by
  intro k
  induction k with
  | zero =>
    intro v hv
    have : v = 0 := by simpa using Nat.lt_one_iff.mp (by simpa using hv)
    subst this
    rw [hexLoop]; simp
  | succ k ih =>
    intro v hv
    by_cases h0 : v = 0
    · subst h0; rw [hexLoop]; simp
    · rw [hexLoop, if_neg h0]
      simp only [List.length_cons]
      have : v >>> 4 < 16 ^ k := by
        rw [shiftRight_four]
        rw [pow_succ] at hv
        exact Nat.div_lt_of_lt_mul (by omega)
      exact Nat.succ_le_succ (ih _ this)

theorem utoa_hex_ne_nul (v : Nat) : ∀ c ∈ utoa_hex v, c ≠ nul := by
  unfold utoa_hex
  by_cases h : v = 0
  · simp [h]; decide
  · rw [if_neg h]
    intro c hc
    exact hexLoop_ne_nul v c (List.mem_reverse.mp hc)

theorem utoa_hex_255 : utoa_hex 255 = ['f', 'f'] := by
  simp [utoa_hex, hexLoop, hexDigits]
  decide

/-! ### Busy-wait lemmas -/

theorem waitFor_isSome (bit : Nat) (srs : List Nat) :
    (waitFor bit srs).isSome = true ↔ ∃ v ∈ srs, v &&& bit ≠ 0 := by
  induction srs with
  | nil => simp [waitFor]
  | cons v rest ih =>
    by_cases h : v &&& bit ≠ 0
    · simp [waitFor, h]
    · rw [waitFor, if_neg h]
      have hm : (match waitFor bit rest with
              | none => (none : Option (List Event × List Nat))
              | some (evs, r) => some (Event.readSR v :: evs, r)).isSome
             = (waitFor bit rest).isSome := by
        cases hw : waitFor bit rest with
        | none => rfl
        | some p => cases p; rfl
      rw [hm, ih]
      simp only [List.mem_cons]
      constructor
      · rintro ⟨u, hu, hb⟩; exact ⟨u, Or.inr hu, hb⟩
      · rintro ⟨u, hu | hu, hb⟩
        · subst hu; exact absurd hb h
        · exact ⟨u, hu, hb⟩

theorem waitFor_waitTrace (bit : Nat) (srs : List Nat) :
    ∀ evs rest, waitFor bit srs = some (evs, rest) → waitTrace bit evs := by
  induction srs with
  | nil => intro evs rest h; simp [waitFor] at h
  | cons v r ih =>
    intro evs rest h
    rw [waitFor] at h
    by_cases hv : v &&& bit ≠ 0
    · rw [if_pos hv] at h
      simp only [Option.some.injEq, Prod.mk.injEq] at h
      exact ⟨[], v, by rw [← h.1]; simp, by simp, hv⟩
    · rw [if_neg hv] at h
      cases hw : waitFor bit r with
      | none => rw [hw] at h; exact absurd h (by simp)
      | some p =>
        obtain ⟨evs', rest'⟩ := p
        rw [hw] at h
        simp only [Option.some.injEq, Prod.mk.injEq] at h
        obtain ⟨pre, w, hevs, hpre, hwbit⟩ := ih evs' rest' hw
        push_neg at hv
        refine ⟨v :: pre, w, ?_, ?_, hwbit⟩
        · rw [← h.1, hevs]; simp
        · intro u hu
          rcases List.mem_cons.mp hu with h1 | h1
          · subst h1; exact hv
          · exact hpre u h1

theorem guardedWrites_after_wait (bit : Nat) (evs : List Event)
    (h : waitTrace bit evs) :
    ∀ l r0, guardedWrites bit r0 (evs ++ l) = guardedWrites bit true l := by
  obtain ⟨pre, v, hevs, hpre, hv⟩ := h
  subst hevs
  induction pre with
  | nil =>
    intro l r0
    simp only [List.map_nil, List.nil_append, List.cons_append, guardedWrites]
    rw [decide_eq_true hv]
    simp
  | cons u pre ih =>
    intro l r0
    have hu : u &&& bit = 0 := hpre u (List.mem_cons_self u pre)
    simp only [List.map_cons, List.cons_append, guardedWrites]
    rw [show decide (u &&& bit ≠ 0) = false by simp [hu]]
    simp only [Bool.or_false]
    exact ih (fun w hw => hpre w (List.mem_cons_of_mem u hw)) l r0

/-! ### Structure of the `dbgu_putc` / `dbgu_getc` traces -/

theorem dbgu_putc_structure (c : Nat) (srs : List Nat) (evs : List Event)
    (rest : List Nat) (h : dbgu_putc c srs = some (evs, rest)) :
    (c = 10 → ∃ w1 w2, waitTrace SR_TXRDY w1 ∧ waitTrace SR_TXRDY w2 ∧
        evs = w1 ++ [Event.writeTHR 13] ++ w2 ++ [Event.writeTHR 10]) ∧
    (c ≠ 10 → ∃ w, waitTrace SR_TXRDY w ∧ evs = w ++ [Event.writeTHR c]) := by
  unfold dbgu_putc at h
  by_cases hc : c = 10
  · subst hc
    rw [if_pos rfl] at h
    refine ⟨fun _ => ?_, fun hne => absurd rfl hne⟩
    cases h1 : waitFor SR_TXRDY srs with
    | none => rw [h1] at h; exact absurd h (by simp)
    | some p1 =>
      obtain ⟨w1, r1⟩ := p1
      rw [h1] at h
      dsimp only at h
      cases h2 : waitFor SR_TXRDY r1 with
      | none => rw [h2] at h; exact absurd h (by simp)
      | some p2 =>
        obtain ⟨w2, r2⟩ := p2
        rw [h2] at h
        dsimp only at h
        simp only [Option.some.injEq, Prod.mk.injEq] at h
        exact ⟨w1, w2, waitFor_waitTrace _ _ _ _ h1, waitFor_waitTrace _ _ _ _ h2,
          h.1.symm⟩
  · rw [if_neg hc] at h
    refine ⟨fun h10 => absurd h10 hc, fun _ => ?_⟩
    cases h1 : waitFor SR_TXRDY srs with
    | none => rw [h1] at h; exact absurd h (by simp)
    | some p1 =>
      obtain ⟨w, r⟩ := p1
      rw [h1] at h
      dsimp only at h
      simp only [Option.some.injEq, Prod.mk.injEq] at h
      exact ⟨w, waitFor_waitTrace _ _ _ _ h1, h.1.symm⟩

theorem dbgu_getc_structure (srs : List Nat) (rhr : Nat) (evs : List Event)
    (r : Nat) (h : dbgu_getc srs rhr = some (evs, r)) :
    r = rhr % 256 ∧
    (∀ b, Event.writeTHR b ∉ evs) ∧
    ∃ w, waitTrace SR_RXRDY w ∧ evs = w ++ [Event.readRHR rhr] := by
  unfold dbgu_getc at h
  cases h1 : waitFor SR_RXRDY srs with
  | none => rw [h1] at h; exact absurd h (by simp)
  | some p =>
    obtain ⟨w, rest⟩ := p
    rw [h1] at h
    dsimp only at h
    simp only [Option.some.injEq, Prod.mk.injEq] at h
    have ht := waitFor_waitTrace _ _ _ _ h1
    refine ⟨h.2.symm, ?_, w, ht, h.1.symm⟩
    intro b hb
    rw [← h.1] at hb
    obtain ⟨pre, v, hevs, -, -⟩ := ht
    rw [hevs] at hb
    simp only [List.append_assoc, List.mem_append, List.mem_map,
      List.mem_singleton, List.mem_cons, List.not_mem_nil, or_false] at hb
    rcases hb with ⟨u, -, hu⟩ | hu | hu <;> exact Event.noConfusion hu

/-! ### String-sending lemmas -/

theorem puts_loop_no_nul (s : List Char) (h : ∀ c ∈ s, c ≠ nul) :
    puts_loop s = s := by
  induction s with
  | nil => rfl
  | cons c rest ih =>
    rw [puts_loop, if_neg (h c (List.mem_cons_self c rest))]
    rw [ih (fun u hu => h u (List.mem_cons_of_mem c hu))]

theorem puts_loop_terminator (s t : List Char) (h : ∀ c ∈ s, c ≠ nul) :
    puts_loop (s ++ nul :: t) = s := by
  induction s with
  | nil => rw [List.nil_append, puts_loop, if_pos rfl]
  | cons c rest ih =>
    rw [List.cons_append, puts_loop, if_neg (h c (List.mem_cons_self c rest))]
    rw [ih (fun u hu => h u (List.mem_cons_of_mem c hu))]

theorem dbgu_puts_utoa (v : Nat) : dbgu_puts (some (utoa_hex v)) = utoa_hex v :=
  puts_loop_no_nul _ (utoa_hex_ne_nul v)

/-! ### Claims -/

/-- C1: `dbgu_init` performs exactly four register writes, in order:
reset-receiver (bit 2) | reset-transmitter (bit 3) to CR in one combined
write, the 8N1 mode value `4 << 9 = 2048` to MR, the divisor
`mck / (16 * baud)` to BRGR, and receiver-enable (bit 4) |
transmitter-enable (bit 6) = `0x50` to CR; for `mck = 60000000` and
`baud = 115200` the divisor written is `32`. -/
theorem init_sequence :
    (∀ mck baud, dbgu_init mck baud =
      [ (Reg.CR, 2 ^ 2 + 2 ^ 3), (Reg.MR, 2048),
        (Reg.BRGR, mck / (16 * baud)), (Reg.CR, 0x50) ]) ∧
    dbgu_init 60000000 115200 =
      [ (Reg.CR, 2 ^ 2 + 2 ^ 3), (Reg.MR, 2048), (Reg.BRGR, 32), (Reg.CR, 0x50) ] := by
  constructor
  · intro mck baud
    simp [dbgu_init, CR_RSTRX, CR_RSTTX, CR_RXEN, CR_TXEN, MR_PAR_NONE]
  · decide

/-- C2: rendering `v` with the hex-conversion algorithm and parsing the
result back as hexadecimal yields `v`; the rendering has no leading zero
digit, except that `v = 0` renders as the single digit `0`. -/
theorem hex_roundtrip_minimal (v : Nat) :
    hexParse (utoa_hex v) = v ∧
    utoa_hex 0 = ['0'] ∧
    (v ≠ 0 → ∃ c l, utoa_hex v = c :: l ∧ c ≠ '0') := by
  refine ⟨?_, by rw [utoa_hex]; simp, ?_⟩
  · by_cases h : v = 0
    · subst h; rw [utoa_hex]; simp [hexParse, hexVal]
    · rw [utoa_hex, if_neg h]
      unfold hexParse
      rw [hexLoop_parse v 0]
      ring
  · intro h
    obtain ⟨c, l, hl, hc⟩ := hexLoop_head_ne_zero v h
    exact ⟨c, l, by rw [utoa_hex, if_neg h]; exact hl, hc⟩

theorem hex_roundtrip_minimal_witness :
    hexParse (utoa_hex 3735928559) = 3735928559 ∧
    (∃ c l, utoa_hex 3735928559 = c :: l ∧ c ≠ '0') :=
  ⟨(hex_roundtrip_minimal 3735928559).1,
   (hex_roundtrip_minimal 3735928559).2.2 (by decide)⟩

/-- C3: `dbgu_putc` on the newline byte performs a busy-wait for TXRDY
(bit 1), writes carriage return (13) to THR, performs a second
independent busy-wait, then writes the newline; on any other byte it
performs one busy-wait and writes exactly that byte. -/
theorem sendChar_crlf (c : Nat) (srs : List Nat) (evs : List Event)
    (rest : List Nat) (h : dbgu_putc c srs = some (evs, rest)) :
    (c = 10 → ∃ w1 w2, waitTrace SR_TXRDY w1 ∧ waitTrace SR_TXRDY w2 ∧
        evs = w1 ++ [Event.writeTHR 13] ++ w2 ++ [Event.writeTHR 10]) ∧
    (c ≠ 10 → ∃ w, waitTrace SR_TXRDY w ∧ evs = w ++ [Event.writeTHR c]) :=
  dbgu_putc_structure c srs evs rest h

theorem sendChar_crlf_witness :
    ∃ w1 w2, waitTrace SR_TXRDY w1 ∧ waitTrace SR_TXRDY w2 ∧
      ([Event.readSR 2, Event.writeTHR 13, Event.readSR 0, Event.readSR 2,
        Event.writeTHR 10] : List Event)
        = w1 ++ [Event.writeTHR 13] ++ w2 ++ [Event.writeTHR 10] :=
  (sendChar_crlf 10 [2, 0, 2]
    [Event.readSR 2, Event.writeTHR 13, Event.readSR 0, Event.readSR 2,
      Event.writeTHR 10] [] (by decide)).1 rfl

/-- C4: `%x` consumes one unsigned argument and emits its minimal-width
lowercase hex rendering with no `0x` prefix; `%p` consumes one address
argument and emits the literal prefix `0x` followed by the same
rendering (never suppressed); `render("%x", 0)` emits `0`,
`render("%x", 255)` emits `ff`, `render("%p", 0)` emits `0x0`. -/
theorem format_hex_directives :
    (∀ v q args, tiny_printf ('%' :: 'x' :: q) (Arg.uint v :: args) =
        (tiny_printf q args).map (fun t => utoa_hex v ++ t)) ∧
    (∀ v q args, tiny_printf ('%' :: 'p' :: q) (Arg.ptr v :: args) =
        (tiny_printf q args).map (fun t => '0' :: 'x' :: (utoa_hex v ++ t))) ∧
    tiny_printf ['%', 'x'] [Arg.uint 0] = some ['0'] ∧
    tiny_printf ['%', 'x'] [Arg.uint 255] = some ['f', 'f'] ∧
    tiny_printf ['%', 'p'] [Arg.ptr 0] = some ['0', 'x', '0'] := by
  refine ⟨fun v q args => ?_, fun v q args => ?_, rfl, ?_, rfl⟩
  · show (tiny_printf q args).map (fun t => dbgu_puts (some (utoa_hex v)) ++ t) = _
    simp only [dbgu_puts_utoa]
  · show (tiny_printf q args).map
        (fun t => dbgu_puts (some ['0', 'x']) ++ dbgu_puts (some (utoa_hex v)) ++ t)
        = _
    simp only [dbgu_puts_utoa]
    rfl
  · show some (dbgu_puts (some (utoa_hex 255)) ++ []) = some ['f', 'f']
    rw [utoa_hex_255]
    decide

/-- C5: every argument-free `%` sequence is passed through, never
rejected: `%%` emits a single literal `%`; a dangling `%` (end of the
format list, or NUL next) emits a single `%` and consumes nothing
further; any other character after `%` is emitted verbatim after `%`;
`render("100%%")` emits exactly `100%` and `render("abc%")` emits
exactly `abc%`. -/
theorem format_passthrough :
    (∀ q args, tiny_printf ('%' :: '%' :: q) args =
        (tiny_printf q args).map (fun t => '%' :: t)) ∧
    (∀ args, tiny_printf ['%'] args = some ['%']) ∧
    (∀ q args, tiny_printf ('%' :: nul :: q) args = some ['%']) ∧
    (∀ d q args, d ∉ (['%', 'c', 's', 'x', 'p'] : List Char) → d ≠ nul →
        tiny_printf ('%' :: d :: q) args =
          (tiny_printf q args).map (fun t => '%' :: d :: t)) ∧
    tiny_printf ['1', '0', '0', '%', '%'] [] = some ['1', '0', '0', '%'] ∧
    tiny_printf ['a', 'b', 'c', '%'] [] = some ['a', 'b', 'c', '%'] := by
  refine ⟨fun q args => rfl, fun args => rfl, fun q args => rfl,
    fun d q args hmem h0 => ?_, by decide, by decide⟩
  simp only [List.mem_cons, List.not_mem_nil, or_false, not_or] at hmem
  obtain ⟨h1, h2, h3, h4, h5⟩ := hmem
  simp only [tiny_printf]
  rw [if_neg (by decide : ¬('%' : Char) = nul)]
  rw [if_neg (by simp : ¬('%' : Char) ≠ '%')]
  rw [if_neg h0, if_neg h1, if_neg h2, if_neg h3, if_neg h4, if_neg h5]

theorem format_passthrough_witness :
    tiny_printf ['%', '!'] [] = (tiny_printf [] []).map (fun t => '%' :: '!' :: t) :=
  format_passthrough.2.2.2.1 '!' [] [] (by decide) (by decide)

/-- C6: `%s` with a null string argument emits exactly the six
characters `(null)`; with a non-null argument it emits every character
of that string in order. -/
theorem format_string_null :
    (∀ q args, tiny_printf ('%' :: 's' :: q) (Arg.str none :: args) =
        (tiny_printf q args).map (fun t => nullSubst ++ t)) ∧
    tiny_printf ['%', 's'] [Arg.str none] = some ['(', 'n', 'u', 'l', 'l', ')'] ∧
    (∀ s, (∀ c ∈ s, c ≠ nul) →
        tiny_printf ['%', 's'] [Arg.str (some s)] = some s) := by
  refine ⟨fun q args => ?_, by decide, fun s h => ?_⟩
  · show (tiny_printf q args).map (fun t => dbgu_puts (some nullSubst) ++ t) = _
    rfl
  · show some (dbgu_puts (some s) ++ []) = some s
    rw [show dbgu_puts (some s) = puts_loop s from rfl, puts_loop_no_nul s h,
      List.append_nil]

theorem format_string_null_witness :
    tiny_printf ['%', 's'] [Arg.str (some ['h', 'i'])] = some ['h', 'i'] :=
  format_string_null.2.2 ['h', 'i'] (by decide)

/-- C7: `dbgu_puts` of a null pointer emits nothing; otherwise it hands
exactly the characters of the string before the terminator to
`dbgu_putc`, in sequence and in order, with no bound on length other
than the terminator. -/
theorem sendString_spec :
    dbgu_puts none = [] ∧
    (∀ s, (∀ c ∈ s, c ≠ nul) → dbgu_puts (some s) = s) ∧
    (∀ s t, (∀ c ∈ s, c ≠ nul) → dbgu_puts (some (s ++ nul :: t)) = s) :=
  ⟨rfl, fun s h => puts_loop_no_nul s h, fun s t h => puts_loop_terminator s t h⟩

theorem sendString_spec_witness :
    dbgu_puts (some (['h', 'i'] ++ nul :: ['x'])) = ['h', 'i'] :=
  sendString_spec.2.2 ['h', 'i'] ['x'] (by decide)

/-- C8: `dbgu_getc` busy-waits until the receiver-ready status bit
(bit 0) is set, then returns the receive-holding-register value
truncated to 8 bits; its trace contains no register write. -/
theorem receiveChar_spec (srs : List Nat) (rhr : Nat) (evs : List Event)
    (r : Nat) (h : dbgu_getc srs rhr = some (evs, r)) :
    r = rhr % 256 ∧
    (∀ b, Event.writeTHR b ∉ evs) ∧
    ∃ w, waitTrace SR_RXRDY w ∧ evs = w ++ [Event.readRHR rhr] :=
  dbgu_getc_structure srs rhr evs r h

theorem receiveChar_spec_witness :
    (163 : Nat) = 419 % 256 ∧
    (∀ b, Event.writeTHR b ∉
      ([Event.readSR 0, Event.readSR 1, Event.readRHR 419] : List Event)) ∧
    ∃ w, waitTrace SR_RXRDY w ∧
      ([Event.readSR 0, Event.readSR 1, Event.readRHR 419] : List Event)
        = w ++ [Event.readRHR 419] :=
  receiveChar_spec [0, 1] 419
    [Event.readSR 0, Event.readSR 1, Event.readRHR 419] 163 (by decide)

/-- C9: a busy-wait loop completes exactly when the polled ready bit is
eventually set in the status-read sequence (there is no timeout path),
and in every completed `dbgu_putc` / `dbgu_getc` trace each
data-register access is licensed by its own prior observation of the
corresponding ready bit (TXRDY = bit 1 for transmit, RXRDY = bit 0 for
receive). -/
theorem busy_wait_spec :
    (∀ bit srs, (waitFor bit srs).isSome = true ↔ ∃ v ∈ srs, v &&& bit ≠ 0) ∧
    (∀ c srs evs rest, dbgu_putc c srs = some (evs, rest) →
        guardedWrites SR_TXRDY false evs = true) ∧
    (∀ srs rhr evs r, dbgu_getc srs rhr = some (evs, r) →
        guardedWrites SR_RXRDY false evs = true) := by
  refine ⟨waitFor_isSome, ?_, ?_⟩
  · intro c srs evs rest h
    obtain ⟨h10, hno⟩ := dbgu_putc_structure c srs evs rest h
    by_cases hc : c = 10
    · obtain ⟨w1, w2, ht1, ht2, hevs⟩ := h10 hc
      subst hevs
      rw [List.append_assoc, List.append_assoc]
      rw [guardedWrites_after_wait SR_TXRDY w1 ht1]
      rw [List.singleton_append]
      show (true && guardedWrites SR_TXRDY false (w2 ++ [Event.writeTHR 10])) = true
      rw [Bool.true_and, guardedWrites_after_wait SR_TXRDY w2 ht2]
      rfl
    · obtain ⟨w, ht, hevs⟩ := hno hc
      subst hevs
      rw [guardedWrites_after_wait SR_TXRDY w ht]
      rfl
  · intro srs rhr evs r h
    obtain ⟨-, -, w, ht, hevs⟩ := dbgu_getc_structure srs rhr evs r h
    subst hevs
    rw [guardedWrites_after_wait SR_RXRDY w ht]
    rfl

theorem busy_wait_spec_witness :
    guardedWrites SR_TXRDY false
      [Event.readSR 2, Event.writeTHR 13, Event.readSR 0, Event.readSR 2,
        Event.writeTHR 10] = true ∧
    guardedWrites SR_RXRDY false
      [Event.readSR 0, Event.readSR 1, Event.readRHR 419] = true :=
  ⟨busy_wait_spec.2.1 10 [2, 0, 2] _ [] (by decide),
   busy_wait_spec.2.2 [0, 1] 419 _ 163 (by decide)⟩

/-- C10: the hex digits of a value fitting `2 * S` nibbles (`S` bytes of
`unsigned long`) number at most `2 * S`, so with the NUL terminator the
`%x` buffer `char b[9]` (32-bit `unsigned int`) and the `%p` buffer
`char b[2*sizeof(unsigned long)+1]` are large enough, and every index
into the temporary digit buffer `tmp` (size `2*sizeof(unsigned long)`)
stays in bounds, the output always NUL-terminated. -/
theorem utoa_hex_bounds :
    (∀ S v, 1 ≤ S → v < 2 ^ (8 * S) → (utoa_hex v).length ≤ 2 * S) ∧
    (∀ v, v < 2 ^ 32 → (utoa_hex v).length + 1 ≤ 9) ∧
    (∀ S v, 1 ≤ S → v < 2 ^ (8 * S) → (utoa_hex v).length + 1 ≤ 2 * S + 1) := by
  have key : ∀ S v, 1 ≤ S → v < 2 ^ (8 * S) → (utoa_hex v).length ≤ 2 * S := by
    intro S v hS hv
    by_cases h : v = 0
    · subst h; rw [utoa_hex]; simp; omega
    · rw [utoa_hex, if_neg h, List.length_reverse]
      refine hexLoop_length_le (2 * S) v ?_
      have : (16 : Nat) ^ (2 * S) = 2 ^ (8 * S) := by
        rw [show (16 : Nat) = 2 ^ 4 from rfl, ← pow_mul]
        ring_nf
      omega
  refine ⟨key, ?_, fun S v hS hv => by have := key S v hS hv; omega⟩
  intro v hv
  have := key 4 v (by omega) (by norm_num; omega)
  omega

theorem utoa_hex_bounds_witness :
    (utoa_hex 4294967295).length ≤ 2 * 4 ∧ (utoa_hex 4294967295).length + 1 ≤ 9 :=
  ⟨utoa_hex_bounds.1 4 4294967295 (by norm_num) (by norm_num),
   utoa_hex_bounds.2.1 4294967295 (by norm_num)⟩

end SerialDemo
